import Mathlib

/-!
Shallow embedding of the peer-connection layer of go-iost (`p2p/peer.go`,
plus the naive network file) and proofs about it.

Machine integers of the source are modelled as `Nat`/`Int`; byte sequences
as `List Nat`; channels as lists (front = next to receive); the bloom
filter of the external willf/bloom dependency is modelled as the exact set
of recorded contents, which captures its no-false-negative guarantee.
-/

namespace GoIost

/-! ## Constants (`p2p/peer.go`, const block) -/

def bloomMaxItemCount : Nat := 100000

def msgChanSize : Nat := 1024

def maxStreamCount : Nat := 8

/-! ## Errors (`p2p/peer.go`, var block) -/

inductive P2PError where
  | streamCountExceed
  | messageChannelFull
  | duplicateMessage
  deriving DecidableEq, Repr

/-! ## Messages

Modelled from the spec: the message codec (`p2p/message.go` is not in the
sources) exposes a content byte sequence and a dedup-required flag; the
message type and send-time stamp play no role in the claims below.
-/

structure P2PMessage where
  content : List Nat
  needDedup : Bool
  deriving DecidableEq, Repr

/-! ## Peer state touched by `SendMessage`/`recordMessage`/`hasMessage`

`recentMsg` is the bloom filter (modelled as the list of contents added
since the last reset), `bloomItemCount` its item counter, and the two
channels are the buffered urgent/normal queues of capacity `msgChanSize`.
-/

structure PeerState where
  recentMsg : List (List Nat)
  bloomItemCount : Nat
  urgentMsgCh : List P2PMessage
  normalMsgCh : List P2PMessage
  deriving DecidableEq, Repr

def initPeer : PeerState := ⟨[], 0, [], []⟩

/-- `recordMessage` (`p2p/peer.go:344-355`): under the bloom mutex, if the
item count has reached `bloomMaxItemCount`, swap in a fresh empty filter and
zero the counter; then add the content and increment the counter. -/
def recordMessage (p : PeerState) (msg : P2PMessage) : PeerState :=
  let p1 := if bloomMaxItemCount ≤ p.bloomItemCount then
      { p with recentMsg := [], bloomItemCount := 0 }
    else p
  { p1 with recentMsg := msg.content :: p1.recentMsg,
            bloomItemCount := p1.bloomItemCount + 1 }

/-- `hasMessage` (`p2p/peer.go:357-362`): bloom membership test on the
message content. The exact-set model returns true iff the content was added
since the last reset (the real bloom filter has no false negatives). -/
def hasMessage (p : PeerState) (msg : P2PMessage) : Bool :=
  decide (msg.content ∈ p.recentMsg)

inductive MessagePriority where
  | urgentMessage
  | normalMessage
  deriving DecidableEq, Repr

/-- `SendMessage` (`p2p/peer.go:309-334`): if deduplicating and the message
needs dedup and the filter reports it seen, reject with `duplicateMessage`;
otherwise try a non-blocking enqueue on the priority-selected channel,
rejecting with `messageChannelFull` when the buffer is at capacity; on a
successful enqueue of a dedup-needing message, record it in the filter. -/
def SendMessage (p : PeerState) (msg : P2PMessage) (mp : MessagePriority)
    (deduplicate : Bool) : Option P2PError × PeerState :=
  if deduplicate && msg.needDedup && hasMessage p msg then
    (some P2PError.duplicateMessage, p)
  else
    let chLen := match mp with
      | MessagePriority.urgentMessage => p.urgentMsgCh.length
      | MessagePriority.normalMessage => p.normalMsgCh.length
    if msgChanSize ≤ chLen then (some P2PError.messageChannelFull, p)
    else
      let p1 := match mp with
        | MessagePriority.urgentMessage =>
            { p with urgentMsgCh := p.urgentMsgCh ++ [msg] }
        | MessagePriority.normalMessage =>
            { p with normalMsgCh := p.normalMsgCh ++ [msg] }
      (none, if msg.needDedup then recordMessage p1 msg else p1)

/-- Folding `recordMessage` over a list of messages (a run of recordings,
from sends or receives, between two points in time). -/
def recordAll (p : PeerState) (ms : List P2PMessage) : PeerState :=
  ms.foldl recordMessage p

/-! ## Stream pool (`AddStream`, `newStream`, `getStream`) -/

structure StreamPool where
  streams : List Nat
  streamCount : Nat
  deriving DecidableEq, Repr

def initPool : StreamPool := ⟨[], 0⟩

/-- `AddStream` (`p2p/peer.go:117-128`): under the stream mutex, reject with
`streamCountExceed` when the live count is at `maxStreamCount`; otherwise
put the stream into the pool channel and increment the count. -/
def AddStream (p : StreamPool) (s : Nat) : Option P2PError × StreamPool :=
  if maxStreamCount ≤ p.streamCount then (some P2PError.streamCountExceed, p)
  else (none, ⟨p.streams ++ [s], p.streamCount + 1⟩)

def addStreams (p : StreamPool) (ss : List Nat) : StreamPool :=
  ss.foldl (fun q s => (AddStream q s).2) p

inductive NewStreamResult where
  | countExceed
  | hostErr (e : Nat)
  | ok (s : Nat)
  deriving DecidableEq, Repr

/-- `newStream` (`p2p/peer.go:142-156`): at the cap return
`streamCountExceed`; else ask the host for a new stream, returning its
error on failure, else the stream (host outcomes are an input here). -/
def newStream (streamCount : Nat) (hostResult : Except Nat Nat) :
    NewStreamResult :=
  if maxStreamCount ≤ streamCount then NewStreamResult.countExceed
  else match hostResult with
    | Except.error e => NewStreamResult.hostErr e
    | Except.ok s => NewStreamResult.ok s

inductive GetStreamOutcome where
  | fromPool (s : Nat)
  | created (s : Nat)
  | openFailed (e : Nat)
  | blocked
  deriving DecidableEq, Repr

/-- `getStream` (`p2p/peer.go:162-174`): non-blocking receive from the pool
channel; if empty, call `newStream`, and when that reports the cap was
reached, fall through to a blocking receive (`blocked`); any other
`newStream` outcome (host failure or fresh stream) is returned as is. -/
def getStream (pool : List Nat) (streamCount : Nat)
    (hostResult : Except Nat Nat) : GetStreamOutcome :=
  match pool with
  | s :: _ => GetStreamOutcome.fromPool s
  | [] =>
    match newStream streamCount hostResult with
    | NewStreamResult.countExceed => GetStreamOutcome.blocked
    | NewStreamResult.hostErr e => GetStreamOutcome.openFailed e
    | NewStreamResult.ok s => GetStreamOutcome.created s

/-! ## `write` (`p2p/peer.go:176-219`)

The three fallible steps of one send are inputs: stream acquisition,
`SetWriteDeadline`, and the stream write itself (a deadline that elapses
surfaces as a write error).  The outcome records which recovery actions the
code takes: `RemoveNeighbor` on the peer manager, `CloseStream` (close plus
count decrement), or returning the stream to the pool.
-/

structure WriteScenario where
  getStreamFails : Bool
  setDeadlineFails : Bool
  writeFails : Bool
  deriving DecidableEq, Repr

structure WriteOutcome where
  errored : Bool
  removedNeighbor : Bool
  closedStream : Bool
  returnedToPool : Bool
  deriving DecidableEq, Repr

def write (sc : WriteScenario) : WriteOutcome :=
  if sc.getStreamFails then ⟨true, true, false, false⟩
  else if sc.setDeadlineFails then ⟨true, false, true, false⟩
  else if sc.writeFails then ⟨true, false, true, false⟩
  else ⟨false, false, false, true⟩

/-- The write deadline of `p2p/peer.go:192` in seconds:
`len(m.content())/1024/5 + 1` with Go integer division. -/
def writeDeadlineSeconds (m : P2PMessage) : Nat :=
  m.content.length / 1024 / 5 + 1

/-- The deadline the spec sentence claims, written from the spec's words:
`max(1s, payloadBytes/5120 s)`. -/
def claimedDeadlineSeconds (m : P2PMessage) : Nat :=
  max 1 (m.content.length / 5120)

/-! ## `readLoop` (`p2p/peer.go:257-306`)

Modelled from the spec: the frame offsets (`p2p/message.go` is not in the
sources) follow the spec's wire format
`[4B chainID][4B length][length B codec payload][8B sendTimeNanos]`, so the
header is `dataBegin = 8` bytes with the chain id in bytes 0-3 and the
payload length in bytes 4-7; `parseP2PMessage` of the codec is an abstract
parameter. `wire` is the byte sequence the stream delivers; a short list is
a failed (partial) read.
-/

def chainIDBytes : Nat := 4

def dataBegin : Nat := 8

/-- `binary.BigEndian.Uint32`-style big-endian value of a byte list. -/
def beUint (bs : List Nat) : Nat :=
  bs.foldl (fun a b => a * 256 + b) 0

structure ReadOutcome where
  payloadReadAttempted : Bool
  delivered : Option P2PMessage
  deriving DecidableEq, Repr

/-- One iteration of `readLoop`: read the 8-byte header in full (failure
terminates), decode and check the chain id (mismatch terminates before any
payload read), read `length + 8` further bytes (the payload and the
trailing send-time stamp; failure terminates), hand header plus body to the
codec, and deliver the parsed message to the peer manager only when the
codec succeeds. -/
def readLoopIteration (parse : List Nat → Option P2PMessage)
    (localChainID : Nat) (wire : List Nat) : ReadOutcome :=
  if wire.length < dataBegin then ⟨false, none⟩
  else
    let header := wire.take dataBegin
    let chainID := beUint (header.take chainIDBytes)
    if chainID ≠ localChainID then ⟨false, none⟩
    else
      let length := beUint (header.drop chainIDBytes)
      if wire.length < dataBegin + length + 8 then ⟨true, none⟩
      else
        match parse (wire.take (dataBegin + length + 8)) with
        | none => ⟨true, none⟩
        | some msg => ⟨true, some msg⟩

/-! ## `NaiveNetwork` framing (`src/unnamed/part_000`) -/

/-- The four big-endian bytes of a 32-bit value. -/
def beUint32Bytes (n : Nat) : List Nat :=
  [n / 16777216 % 256, n / 65536 % 256, n / 256 % 256, n % 256]

/-- A value handed to `encoding/binary.Write`. -/
inductive GoBinValue where
  | goInt (n : Int)
  | goInt32 (n : Int)
  deriving DecidableEq, Repr

/-- `encoding/binary.Write` with big-endian order: the bytes appended to
the buffer, or `none` for the error case.  Go's `binary.Write` encodes only
fixed-size values; the platform-dependent `int` is not one, so it returns
an error and appends nothing, while `int32` encodes as four big-endian
bytes. -/
def binaryWriteBigEndian : GoBinValue → Option (List Nat)
  | GoBinValue.goInt _ => none
  | GoBinValue.goInt32 n => some (beUint32Bytes ((n.emod 4294967296).toNat))

/-- `NaiveNetwork.Send` framing (`part_000:58-83`): `length := len(buf)` is
a plain `int`, and `binary.Write(int32buf, binary.BigEndian, length)`'s
error is discarded, so `int32buf` holds whatever that call appended; the
connection then receives `int32buf.Bytes()` followed by the body. -/
def naiveNetworkSendFrame (body : List Nat) : List Nat :=
  let int32buf : List Nat :=
    match binaryWriteBigEndian (GoBinValue.goInt (Int.ofNat body.length)) with
    | some bs => bs
    | none => []
  int32buf ++ body

/-- The frame `Send` would produce if the length were passed to
`binary.Write` as a fixed-size `int32`, which is what `Listen`'s 4-byte
header (`HEADLENGTH`) and `RequestHead.Length uint32` expect. -/
def intendedSendFrame (body : List Nat) : List Nat :=
  beUint32Bytes body.length ++ body

/-- `NaiveNetwork.Listen`'s connection handler (`part_000:107-128`): read a
`HEADLENGTH = 4` byte header, decode it as a big-endian length, then read
that many body bytes. -/
def listenHandlerDecode (wire : List Nat) : Nat × List Nat :=
  let buf := wire.take 4
  let length := beUint buf
  (length, (wire.drop 4).take length)

/-! ## Write scheduler (`writeLoop`, `p2p/peer.go:221-250`)

A small-step transition system over the observable events of the loop and
its submitters.  Each successful submission gets the current clock value as
its identity, so `u < n` says "u was submitted strictly before n".  The
write log records `p.write` invocations in their real-time order: urgent
writes run synchronously in the loop; a dequeued normal message first has
the urgent queue drained (non-blocking) and is then spawned as an
independent task (`pending`) whose write can interleave with everything
later.  `stop`/`exitLoop` model closing `quitWriteCh` and the loop's
return; a closed quit channel leaves the select free to keep serving
messages until it happens to pick the quit case.
-/

inductive Prio where
  | urgent
  | normal
  deriving DecidableEq, Repr

inductive LoopMode where
  | idle
  | draining (nm : Nat)
  | halted
  deriving DecidableEq, Repr

structure SchedState where
  clock : Nat
  urgentQ : List Nat
  normalQ : List Nat
  pending : List Nat
  writeLog : List (Nat × Prio)
  subs : List (Nat × Prio)
  mode : LoopMode
  stopped : Bool
  deriving DecidableEq, Repr

def initSched : SchedState := ⟨0, [], [], [], [], [], LoopMode.idle, false⟩

inductive SchedAction where
  | submitUrgent
  | submitNormal
  | stepUrgent
  | selectNormal
  | drainUrgent
  | drainDone
  | fireNormal (i : Nat)
  | stop
  | exitLoop
  deriving DecidableEq, Repr

def schedStep (s : SchedState) : SchedAction → SchedState
  | SchedAction.submitUrgent =>
      if s.urgentQ.length < msgChanSize then
        { s with clock := s.clock + 1, urgentQ := s.urgentQ ++ [s.clock],
                 subs := s.subs ++ [(s.clock, Prio.urgent)] }
      else s
  | SchedAction.submitNormal =>
      if s.normalQ.length < msgChanSize then
        { s with clock := s.clock + 1, normalQ := s.normalQ ++ [s.clock],
                 subs := s.subs ++ [(s.clock, Prio.normal)] }
      else s
  | SchedAction.stepUrgent =>
      match s.mode, s.urgentQ with
      | LoopMode.idle, u :: rest =>
          { s with urgentQ := rest, writeLog := s.writeLog ++ [(u, Prio.urgent)] }
      | _, _ => s
  | SchedAction.selectNormal =>
      match s.mode, s.normalQ with
      | LoopMode.idle, n :: rest =>
          { s with normalQ := rest, mode := LoopMode.draining n }
      | _, _ => s
  | SchedAction.drainUrgent =>
      match s.mode, s.urgentQ with
      | LoopMode.draining _, u :: rest =>
          { s with urgentQ := rest, writeLog := s.writeLog ++ [(u, Prio.urgent)] }
      | _, _ => s
  | SchedAction.drainDone =>
      match s.mode, s.urgentQ with
      | LoopMode.draining n, [] =>
          { s with pending := s.pending ++ [n], mode := LoopMode.idle }
      | _, _ => s
  | SchedAction.fireNormal i =>
      match s.pending.get? i with
      | some n =>
          { s with pending := s.pending.eraseIdx i,
                   writeLog := s.writeLog ++ [(n, Prio.normal)] }
      | none => s
  | SchedAction.stop => { s with stopped := true }
  | SchedAction.exitLoop =>
      if s.stopped then { s with mode := LoopMode.halted } else s

def runSched (tr : List SchedAction) : SchedState :=
  tr.foldl schedStep initSched

/-- The urgent timestamps of an event list, in order. -/
def urgentsOf (l : List (Nat × Prio)) : List Nat :=
  (l.filter (fun e => match e.2 with
    | Prio.urgent => true
    | Prio.normal => false)).map Prod.fst

/-- The inductive invariant of the write scheduler: clocks bound every
recorded timestamp, submissions are recorded in strictly increasing clock
order, the urgent submissions are exactly the urgent writes so far followed
by the urgent queue (FIFO), every spawned normal write already has all
earlier-submitted urgent messages in the log, every logged normal write has
them at earlier log positions, and urgent log entries appear in submission
order. -/
structure SchedInv (s : SchedState) : Prop where
  subClock : ∀ e ∈ s.subs, e.1 < s.clock
  logClock : ∀ e ∈ s.writeLog, e.1 < s.clock
  pendClock : ∀ n ∈ s.pending, n < s.clock
  nqClock : ∀ n ∈ s.normalQ, n < s.clock
  modeClock : ∀ n : Nat, s.mode = LoopMode.draining n → n < s.clock
  subsSorted : s.subs.Pairwise (fun a b => a.1 < b.1)
  urgHist : urgentsOf s.subs = urgentsOf s.writeLog ++ s.urgentQ
  pendSafe : ∀ n ∈ s.pending, ∀ u : Nat, (u, Prio.urgent) ∈ s.subs → u < n →
    (u, Prio.urgent) ∈ s.writeLog
  logSafe : ∀ j n, s.writeLog.get? j = some (n, Prio.normal) →
    ∀ u : Nat, (u, Prio.urgent) ∈ s.subs → u < n →
    ∃ i, i < j ∧ s.writeLog.get? i = some (u, Prio.urgent)
  urgOrder : ∀ i j t1 t2, i < j → s.writeLog.get? i = some (t1, Prio.urgent) →
    s.writeLog.get? j = some (t2, Prio.urgent) → t1 < t2

/-! ## Concrete inputs used by witnesses and counterexamples -/

/-- A six-step schedule: an urgent then a normal submission, the loop picks
the normal message, drains the urgent one, spawns the normal write, which
then fires. -/
def witnessTrace : List SchedAction :=
  [SchedAction.submitUrgent, SchedAction.submitNormal, SchedAction.selectNormal,
   SchedAction.drainUrgent, SchedAction.drainDone, SchedAction.fireNormal 0]

/-- A peer whose normal channel holds `msgChanSize` messages. -/
def fullChannelPeer : PeerState :=
  ⟨[], 0, [], List.replicate msgChanSize (P2PMessage.mk [] false)⟩

/-- A dedup-needing message with a one-byte content. -/
def probeMessage : P2PMessage := ⟨[5], true⟩

/-- The 12 ASCII bytes of "hello-world!", the spec's example body. -/
def helloBody : List Nat := [104, 101, 108, 108, 111, 45, 119, 111, 114, 108, 100, 33]

/-! # Theorems -/

/-! ## C2 — write deadline formula -/

/-- C2 counterexample: for a 5120-byte payload the code grants
`5120/1024/5 + 1 = 2` seconds, while the claimed `max(1s, 5120/5120 s)` is
1 second, so the deadline does not equal the claimed value. -/
theorem write_deadline_claim_cex :
    writeDeadlineSeconds (P2PMessage.mk (List.replicate 5120 0) false) = 2 ∧
    claimedDeadlineSeconds (P2PMessage.mk (List.replicate 5120 0) false) = 1 ∧
    writeDeadlineSeconds (P2PMessage.mk (List.replicate 5120 0) false) ≠
      claimedDeadlineSeconds (P2PMessage.mk (List.replicate 5120 0) false) := by
  refine ⟨?_, ?_, ?_⟩ <;>
    norm_num [writeDeadlineSeconds, claimedDeadlineSeconds, List.length_replicate]

/-- C2 (amended): the write deadline granted to the stream write is
`⌊payloadBytes/5120⌋ + 1` seconds; it is always at least the claimed
`max(1s, payloadBytes/5120 s)` 5 KB/s floor, and exceeds it exactly when
`payloadBytes` is a positive multiple of 5120 would make them differ. -/
theorem write_deadline_formula (m : P2PMessage) :
    writeDeadlineSeconds m = m.content.length / 5120 + 1 ∧
    claimedDeadlineSeconds m ≤ writeDeadlineSeconds m := by
  have h : writeDeadlineSeconds m = m.content.length / 5120 + 1 := by
    unfold writeDeadlineSeconds
    rw [Nat.div_div_eq_div_mul]
  refine ⟨h, ?_⟩
  rw [h]
  unfold claimedDeadlineSeconds
  exact max_le (Nat.succ_le_succ (Nat.zero_le _)) (Nat.le_succ _)

/-! ## C1 — write failure escalation -/

/-- C1 counterexample: when the stream write itself fails (which is how an
elapsed write deadline surfaces), the code closes the stream but does not
instruct the peer manager to drop the peer, contradicting the claim that
every write failure escalates to peer removal. -/
theorem write_io_error_cex :
    (write ⟨false, false, true⟩).errored = true ∧
    (write ⟨false, false, true⟩).closedStream = true ∧
    (write ⟨false, false, true⟩).removedNeighbor = false := by
  decide

/-- C1 (amended): a send that fails at the deadline-setting or stream-write
step retires the stream (closed, count decremented) without returning it to
the pool and surfaces the error, but the peer manager is instructed to drop
the peer exactly when stream acquisition fails, never on a write I/O
error. -/
theorem write_failure_escalation :
    (∀ sc : WriteScenario, sc.getStreamFails = false →
      (sc.setDeadlineFails = true ∨ sc.writeFails = true) →
      (write sc).errored = true ∧ (write sc).closedStream = true ∧
      (write sc).returnedToPool = false ∧ (write sc).removedNeighbor = false) ∧
    (∀ sc : WriteScenario, (write sc).removedNeighbor = true ↔ sc.getStreamFails = true) := by
  refine ⟨?_, ?_⟩
  · rintro ⟨g, d, w⟩ hg hf
    cases g <;> cases d <;> cases w <;> simp_all [write]
  · rintro ⟨g, d, w⟩
    cases g <;> cases d <;> cases w <;> simp [write]

/-- C1 witness: the amended theorem at a failing stream write. -/
theorem write_failure_escalation_witness :
    (write ⟨false, false, true⟩).closedStream = true ∧
    (write ⟨false, false, true⟩).removedNeighbor = false := by
  have h := write_failure_escalation.1 ⟨false, false, true⟩ rfl (Or.inr rfl)
  exact ⟨h.2.1, h.2.2.2⟩

/-! ## C5 — stream count cap -/

theorem addStreams_count_le (ss : List Nat) :
    ∀ p : StreamPool, p.streamCount ≤ maxStreamCount →
      (addStreams p ss).streamCount ≤ maxStreamCount := by
  induction ss with
  | nil => intro p h; exact h
  | cons s rest ih =>
    intro p h
    show (addStreams ((AddStream p s).2) rest).streamCount ≤ maxStreamCount
    apply ih
    unfold AddStream
    by_cases hc : maxStreamCount ≤ p.streamCount
    · rw [if_pos hc]; exact h
    · rw [if_neg hc]; exact Nat.succ_le_of_lt (Nat.lt_of_not_le hc)

/-- C5: over every sequence of `AddStream` calls from the initial pool the
live stream count never exceeds `maxStreamCount = 8`, and an `AddStream`
call made at (or beyond) the cap returns `streamCountExceed` leaving the
pool and the count unchanged. -/
theorem AddStream_cap :
    (∀ ss : List Nat, (addStreams initPool ss).streamCount ≤ maxStreamCount) ∧
    (∀ (p : StreamPool) (s : Nat), maxStreamCount ≤ p.streamCount →
      AddStream p s = (some P2PError.streamCountExceed, p)) := by
  refine ⟨fun ss => addStreams_count_le ss initPool (by decide), ?_⟩
  intro p s h
  unfold AddStream
  rw [if_pos h]

/-- C5 witness: nine consecutive `AddStream` calls stay at the cap, and the
call at a full pool is rejected without change. -/
theorem AddStream_cap_witness :
    (addStreams initPool [1, 2, 3, 4, 5, 6, 7, 8, 9]).streamCount ≤ maxStreamCount ∧
    AddStream ⟨[], 8⟩ 0 = (some P2PError.streamCountExceed, ⟨[], 8⟩) :=
  ⟨AddStream_cap.1 [1, 2, 3, 4, 5, 6, 7, 8, 9],
   AddStream_cap.2 ⟨[], 8⟩ 0 (by decide)⟩

/-! ## C6 — getStream never surfaces exhaustion -/

/-- C6: `getStream` returns an idle stream when one exists; with an empty
pool below the cap it opens a new stream and only a host open failure is
returned as an error; at the cap it blocks for a released stream and never
attempts (or surfaces) a new-stream open, so pool exhaustion is never an
error to the caller. -/
theorem getStream_spec :
    ∀ (pool : List Nat) (count : Nat) (host : Except Nat Nat),
    (∀ e, getStream pool count host = GetStreamOutcome.openFailed e →
      pool = [] ∧ count < maxStreamCount ∧ host = Except.error e) ∧
    (∀ s rest, pool = s :: rest → getStream pool count host = GetStreamOutcome.fromPool s) ∧
    (pool = [] → maxStreamCount ≤ count → getStream pool count host = GetStreamOutcome.blocked) ∧
    (∀ s, pool = [] → count < maxStreamCount → host = Except.ok s →
      getStream pool count host = GetStreamOutcome.created s) := by
  intro pool count host
  cases pool with
  | cons s rest =>
    refine ⟨?_, ?_, ?_, ?_⟩
    · intro e h; simp [getStream] at h
    · intro s' rest' h
      injection h with h1 _
      simp [getStream, h1]
    · intro h; simp at h
    · intro s' h; simp at h
  | nil =>
    by_cases hc : maxStreamCount ≤ count
    · refine ⟨?_, ?_, ?_, ?_⟩
      · intro e h
        simp [getStream, newStream, hc] at h
      · intro s' rest' h; simp at h
      · intro _ _; simp [getStream, newStream, hc]
      · intro s' _ hlt _; omega
    · refine ⟨?_, ?_, ?_, ?_⟩
      · intro e h
        cases host with
        | error e' =>
          simp [getStream, newStream, hc] at h
          exact ⟨rfl, Nat.lt_of_not_le hc, by rw [h]⟩
        | ok s' => simp [getStream, newStream, hc] at h
      · intro s' rest' h; simp at h
      · intro _ h; omega
      · intro s' _ _ hh
        simp [getStream, newStream, hc, hh]

/-- C6 witness: an empty pool at the cap blocks instead of erroring. -/
theorem getStream_spec_witness :
    getStream [] 8 (Except.ok 0) = GetStreamOutcome.blocked :=
  (getStream_spec [] 8 (Except.ok 0)).2.2.1 rfl (by decide)

/-! ## C7 — dedup filter capacity reset -/

theorem recordMessage_no_reset {p : PeerState} {m : P2PMessage}
    (h : p.bloomItemCount < bloomMaxItemCount) :
    recordMessage p m = { p with recentMsg := m.content :: p.recentMsg,
                                 bloomItemCount := p.bloomItemCount + 1 } := by
  unfold recordMessage
  rw [if_neg (Nat.not_le_of_lt h)]

theorem recordAll_props (ms : List P2PMessage) :
    ∀ p : PeerState, p.bloomItemCount + ms.length ≤ bloomMaxItemCount →
      (recordAll p ms).bloomItemCount = p.bloomItemCount + ms.length ∧
      (∀ c, c ∈ p.recentMsg → c ∈ (recordAll p ms).recentMsg) ∧
      (∀ m ∈ ms, m.content ∈ (recordAll p ms).recentMsg) := by
  induction ms with
  | nil =>
    intro p _
    refine ⟨rfl, fun c hc => hc, ?_⟩
    intro m hm
    exact absurd hm (List.not_mem_nil m)
  | cons m rest ih =>
    intro p h
    have hlt : p.bloomItemCount < bloomMaxItemCount := by
      simp only [List.length_cons] at h
      omega
    have hrw : recordAll p (m :: rest) =
        recordAll { p with recentMsg := m.content :: p.recentMsg,
                           bloomItemCount := p.bloomItemCount + 1 } rest := by
      show recordAll (recordMessage p m) rest = _
      rw [recordMessage_no_reset hlt]
    have hle : ({ p with recentMsg := m.content :: p.recentMsg,
                         bloomItemCount := p.bloomItemCount + 1 } :
        PeerState).bloomItemCount + rest.length ≤ bloomMaxItemCount := by
      simp only [List.length_cons] at h
      simpa using by omega
    have ihp := ih _ hle
    refine ⟨?_, ?_, ?_⟩
    · rw [hrw, ihp.1]
      simp [List.length_cons]
      omega
    · intro c hc
      rw [hrw]
      exact ihp.2.1 c (List.mem_cons_of_mem _ hc)
    · intro m' hm'
      rcases List.mem_cons.mp hm' with hms | hms
      · rw [hrw, hms]
        exact ihp.2.1 m.content (List.mem_cons_self _ _)
      · rw [hrw]
        exact ihp.2.2 m' hms

/-- C7: `recordMessage` swaps in a fresh filter and zeroes the counter when
the counter has reached capacity, then adds the content and increments;
after recording exactly `bloomMaxItemCount` messages from a fresh peer the
counter is at capacity and the next record resets to a filter holding only
that record; any just-recorded item tests positive immediately, and no item
recorded since the last reset ever tests negative. -/
theorem recordMessage_capacity_reset :
    (∀ (p : PeerState) (m : P2PMessage),
      recordMessage p m =
        if bloomMaxItemCount ≤ p.bloomItemCount then
          { p with recentMsg := [m.content], bloomItemCount := 1 }
        else
          { p with recentMsg := m.content :: p.recentMsg,
                   bloomItemCount := p.bloomItemCount + 1 }) ∧
    (∀ (p : PeerState) (m : P2PMessage), hasMessage (recordMessage p m) m = true) ∧
    (∀ ms : List P2PMessage, ms.length = bloomMaxItemCount →
      (recordAll initPeer ms).bloomItemCount = bloomMaxItemCount ∧
      ∀ m, recordMessage (recordAll initPeer ms) m =
        { recordAll initPeer ms with recentMsg := [m.content], bloomItemCount := 1 }) ∧
    (∀ ms : List P2PMessage, ms.length ≤ bloomMaxItemCount →
      ∀ m ∈ ms, hasMessage (recordAll initPeer ms) m = true) := by
  have hshape : ∀ (p : PeerState) (m : P2PMessage),
      recordMessage p m =
        if bloomMaxItemCount ≤ p.bloomItemCount then
          { p with recentMsg := [m.content], bloomItemCount := 1 }
        else
          { p with recentMsg := m.content :: p.recentMsg,
                   bloomItemCount := p.bloomItemCount + 1 } := by
    intro p m
    unfold recordMessage
    by_cases hc : bloomMaxItemCount ≤ p.bloomItemCount
    · rw [if_pos hc, if_pos hc]
    · rw [if_neg hc, if_neg hc]
  refine ⟨hshape, ?_, ?_, ?_⟩
  · intro p m
    rw [hshape]
    by_cases hc : bloomMaxItemCount ≤ p.bloomItemCount
    · rw [if_pos hc]
      simp [hasMessage]
    · rw [if_neg hc]
      simp [hasMessage]
  · intro ms hlen
    have hp := recordAll_props ms initPeer (by simp [initPeer, hlen])
    have hcount : (recordAll initPeer ms).bloomItemCount = bloomMaxItemCount := by
      rw [hp.1]; simp [initPeer, hlen]
    refine ⟨hcount, fun m => ?_⟩
    rw [hshape]
    rw [if_pos (le_of_eq hcount.symm)]
  · intro ms hlen m hm
    have hp := recordAll_props ms initPeer (by simp [initPeer, hlen])
    simp [hasMessage]
    exact hp.2.2 m hm

/-- C7 witness: a just-recorded item tests positive, both directly and
through a one-element recording run from the fresh peer. -/
theorem recordMessage_capacity_reset_witness :
    hasMessage (recordMessage initPeer probeMessage) probeMessage = true ∧
    hasMessage (recordAll initPeer [probeMessage]) probeMessage = true :=
  ⟨recordMessage_capacity_reset.2.1 initPeer probeMessage,
   recordMessage_capacity_reset.2.2.2 [probeMessage] (by decide) probeMessage
     (List.mem_singleton.mpr rfl)⟩

/-! ## C4 — dedup-eligible message submitted twice -/

theorem SendMessage_fresh_success {m : P2PMessage} (hm : m.needDedup = true)
    (mp : MessagePriority) :
    (SendMessage initPeer m mp true).1 = none ∧
    ((SendMessage initPeer m mp true).2).recentMsg = [m.content] ∧
    ((SendMessage initPeer m mp true).2).bloomItemCount = 1 := by
  cases mp <;>
    simp [SendMessage, hasMessage, initPeer, msgChanSize, hm, recordMessage,
      bloomMaxItemCount]

/-- C4: from a fresh peer, submitting a dedup-eligible message `m` with
`deduplicate = true` succeeds; after fewer than `bloomMaxItemCount` other
recordings, a second submission of `m` with `deduplicate = true` is rejected
with `duplicateMessage` and leaves the peer state (queues, filter, counter)
unchanged — exactly one success and one duplicate rejection. -/
theorem SendMessage_dedup_once :
    ∀ m : P2PMessage, m.needDedup = true →
    ∀ (mp mp' : MessagePriority) (ms : List P2PMessage),
    ms.length < bloomMaxItemCount →
    (SendMessage initPeer m mp true).1 = none ∧
    (SendMessage (recordAll (SendMessage initPeer m mp true).2 ms) m mp' true).1
      = some P2PError.duplicateMessage ∧
    (SendMessage (recordAll (SendMessage initPeer m mp true).2 ms) m mp' true).2
      = recordAll (SendMessage initPeer m mp true).2 ms := by
  intro m hm mp mp' ms hlen
  obtain ⟨h1, hrec, hcnt⟩ := SendMessage_fresh_success hm mp
  have hprops := recordAll_props ms ((SendMessage initPeer m mp true).2)
    (by rw [hcnt]; omega)
  have hmem : m.content ∈ (recordAll (SendMessage initPeer m mp true).2 ms).recentMsg := by
    apply hprops.2.1
    rw [hrec]
    exact List.mem_singleton.mpr rfl
  have hdup : hasMessage (recordAll (SendMessage initPeer m mp true).2 ms) m = true := by
    simp [hasMessage, hmem]
  have hgoal : ∀ q : PeerState, hasMessage q m = true →
      (SendMessage q m mp' true).1 = some P2PError.duplicateMessage ∧
      (SendMessage q m mp' true).2 = q := by
    intro q hq
    simp [SendMessage, hq, hm]
  exact ⟨h1, (hgoal _ hdup).1, (hgoal _ hdup).2⟩

/-- C4 witness: the theorem at a concrete message with no intervening
recordings. -/
theorem SendMessage_dedup_once_witness :
    (SendMessage initPeer probeMessage MessagePriority.urgentMessage true).1 = none ∧
    (SendMessage
        (recordAll (SendMessage initPeer probeMessage MessagePriority.urgentMessage true).2 [])
        probeMessage MessagePriority.normalMessage true).1
      = some P2PError.duplicateMessage := by
  have h := SendMessage_dedup_once probeMessage rfl MessagePriority.urgentMessage
    MessagePriority.normalMessage [] (by decide)
  exact ⟨h.1, h.2.1⟩

/-! ## C9 — rejected submissions leave the peer unchanged -/

/-- C9: whenever `SendMessage` rejects with `duplicateMessage` or
`messageChannelFull` it returns the peer state unchanged — nothing is
enqueued on either queue and the filter and its counter are untouched; in
particular after a `messageChannelFull` rejection of a deduplicating
submission, resubmitting the same message (any priority) is never rejected
as a duplicate. -/
theorem SendMessage_rejection_pure :
    ∀ (p : PeerState) (m : P2PMessage) (mp : MessagePriority) (d : Bool),
    ((SendMessage p m mp d).1 = some P2PError.duplicateMessage ∨
      (SendMessage p m mp d).1 = some P2PError.messageChannelFull) →
    (SendMessage p m mp d).2 = p ∧
    ((SendMessage p m mp d).1 = some P2PError.messageChannelFull → d = true →
      ∀ mp', (SendMessage p m mp' true).1 ≠ some P2PError.duplicateMessage) := by
  intro p m mp d hrej
  have hne : (SendMessage p m mp d).1 ≠ none := by
    rcases hrej with h | h <;> rw [h] <;> exact Option.noConfusion
  constructor
  · by_cases h1 : (d && m.needDedup && hasMessage p m) = true
    · unfold SendMessage
      rw [if_pos h1]
    · unfold SendMessage at hne ⊢
      rw [if_neg h1] at hne ⊢
      cases mp with
      | urgentMessage =>
        dsimp only at hne ⊢
        by_cases h2 : msgChanSize ≤ p.urgentMsgCh.length
        · rw [if_pos h2]
        · rw [if_neg h2] at hne
          exact absurd rfl hne
      | normalMessage =>
        dsimp only at hne ⊢
        by_cases h2 : msgChanSize ≤ p.normalMsgCh.length
        · rw [if_pos h2]
        · rw [if_neg h2] at hne
          exact absurd rfl hne
  · intro hfull hd mp'
    by_cases h1 : (d && m.needDedup && hasMessage p m) = true
    · exfalso
      unfold SendMessage at hfull
      rw [if_pos h1] at hfull
      simp at hfull
    · have h1' : (true && m.needDedup && hasMessage p m) = false := by
        rw [hd] at h1
        exact Bool.eq_false_iff.mpr h1
      have hcond : ¬((true && m.needDedup && hasMessage p m) = true) := by
        rw [h1']
        exact Bool.false_ne_true
      unfold SendMessage
      rw [if_neg hcond]
      cases mp' with
      | urgentMessage =>
        dsimp only
        by_cases h2 : msgChanSize ≤ p.urgentMsgCh.length
        · rw [if_pos h2]
          simp
        · rw [if_neg h2]
          simp
      | normalMessage =>
        dsimp only
        by_cases h2 : msgChanSize ≤ p.normalMsgCh.length
        · rw [if_pos h2]
          simp
        · rw [if_neg h2]
          simp

/-- C9 witness: a full normal channel rejects with `messageChannelFull`,
the state is unchanged, and an immediate resubmission is not treated as a
duplicate. -/
theorem SendMessage_rejection_pure_witness :
    (SendMessage fullChannelPeer probeMessage MessagePriority.normalMessage true).2
      = fullChannelPeer ∧
    (SendMessage fullChannelPeer probeMessage MessagePriority.urgentMessage true).1
      ≠ some P2PError.duplicateMessage := by
  have hfull : (SendMessage fullChannelPeer probeMessage
      MessagePriority.normalMessage true).1 = some P2PError.messageChannelFull := by
    have hhm : hasMessage fullChannelPeer probeMessage = false := rfl
    have hcond : ¬((true && probeMessage.needDedup &&
        hasMessage fullChannelPeer probeMessage) = true) := by
      rw [hhm]
      simp
    have hlen : fullChannelPeer.normalMsgCh.length = msgChanSize := by
      show (List.replicate msgChanSize (P2PMessage.mk [] false)).length = msgChanSize
      exact List.length_replicate _ _
    unfold SendMessage
    rw [if_neg hcond]
    dsimp only
    rw [hlen, if_pos (le_refl msgChanSize)]
  have h := SendMessage_rejection_pure fullChannelPeer probeMessage
    MessagePriority.normalMessage true (Or.inr hfull)
  exact ⟨h.1, h.2 hfull rfl MessagePriority.urgentMessage⟩

/-! ## C8 — frame reader delivery guard -/

/-- C8: the reader delivers a message to the peer manager only when the
frame's chain id matches the local configuration and the codec decode
succeeds; a chain-id mismatch terminates the reader before any payload read
with no delivery, and a decode failure terminates it without delivery. -/
theorem readLoop_delivery_guard :
    ∀ (parse : List Nat → Option P2PMessage) (cfg : Nat) (wire : List Nat),
    (∀ m, (readLoopIteration parse cfg wire).delivered = some m →
      beUint ((wire.take dataBegin).take chainIDBytes) = cfg ∧
      parse (wire.take (dataBegin +
        beUint ((wire.take dataBegin).drop chainIDBytes) + 8)) = some m) ∧
    (dataBegin ≤ wire.length →
      beUint ((wire.take dataBegin).take chainIDBytes) ≠ cfg →
      readLoopIteration parse cfg wire = ⟨false, none⟩) ∧
    (parse (wire.take (dataBegin +
        beUint ((wire.take dataBegin).drop chainIDBytes) + 8)) = none →
      (readLoopIteration parse cfg wire).delivered = none) := by
  intro parse cfg wire
  by_cases hshort : wire.length < dataBegin
  · refine ⟨?_, ?_, ?_⟩
    · intro m hm
      unfold readLoopIteration at hm
      rw [if_pos hshort] at hm
      simp at hm
    · intro hge _
      omega
    · intro _
      unfold readLoopIteration
      rw [if_pos hshort]
  · by_cases hchain : beUint ((wire.take dataBegin).take chainIDBytes) ≠ cfg
    · have hout : readLoopIteration parse cfg wire = ⟨false, none⟩ := by
        unfold readLoopIteration
        rw [if_neg hshort, if_pos hchain]
      refine ⟨?_, fun _ _ => hout, ?_⟩
      · intro m hm
        rw [hout] at hm
        simp at hm
      · intro _
        rw [hout]
    · by_cases hbody : wire.length < dataBegin +
          beUint ((wire.take dataBegin).drop chainIDBytes) + 8
      · have hout : readLoopIteration parse cfg wire = ⟨true, none⟩ := by
          unfold readLoopIteration
          rw [if_neg hshort, if_neg hchain, if_pos hbody]
        refine ⟨?_, ?_, ?_⟩
        · intro m hm
          rw [hout] at hm
          simp at hm
        · intro _ hc
          exact absurd hc hchain
        · intro _
          rw [hout]
      · have hout : readLoopIteration parse cfg wire =
            match parse (wire.take (dataBegin +
              beUint ((wire.take dataBegin).drop chainIDBytes) + 8)) with
            | none => ⟨true, none⟩
            | some msg => ⟨true, some msg⟩ := by
          unfold readLoopIteration
          rw [if_neg hshort, if_neg hchain, if_neg hbody]
        refine ⟨?_, ?_, ?_⟩
        · intro m hm
          rw [hout] at hm
          cases hp : parse (wire.take (dataBegin +
              beUint ((wire.take dataBegin).drop chainIDBytes) + 8)) with
          | none =>
            rw [hp] at hm
            simp at hm
          | some m' =>
            rw [hp] at hm
            simp at hm
            refine ⟨not_not.mp hchain, ?_⟩
            rw [hm]
        · intro _ hc
          exact absurd hc hchain
        · intro hp
          rw [hout, hp]

/-- C8 witness: a well-formed header carrying chain id 8 against a local
configuration of 7 is dropped with no payload read and no delivery. -/
theorem readLoop_delivery_guard_witness :
    readLoopIteration (fun _ => none) 7 [0, 0, 0, 8, 0, 0, 0, 0] =
      ReadOutcome.mk false none :=
  (readLoop_delivery_guard (fun _ => none) 7 [0, 0, 0, 8, 0, 0, 0, 0]).2.1
    (by decide) (by decide)

/-! ## C10 — NaiveNetwork length framing -/

/-- C10: evaluation of the code at the spec's example body.  `Send` writes
no length header at all — `binary.Write` rejects the non-fixed-size `int`
length and the error is discarded — so the wire holds only the body, and
`Listen`'s handler decodes the first four body bytes (0x68656c6c =
1751477356) as the length instead of the body length 12; with the length
passed as a fixed-size `int32` (what `Listen`'s 4-byte header expects) the
framing would round-trip. -/
theorem naiveNetwork_length_header_eval :
    (∀ body : List Nat, naiveNetworkSendFrame body = body) ∧
    (listenHandlerDecode (naiveNetworkSendFrame helloBody)).1 = 1751477356 ∧
    helloBody.length = 12 ∧
    (listenHandlerDecode (naiveNetworkSendFrame helloBody)).1 ≠ helloBody.length ∧
    (listenHandlerDecode (intendedSendFrame helloBody)).1 = helloBody.length ∧
    (listenHandlerDecode (intendedSendFrame helloBody)).2 = helloBody := by
  refine ⟨?_, by decide, by decide, by decide, by decide, by decide⟩
  intro body
  rfl

/-! ## C3 — urgent precedes later-submitted normal writes

Helper lemmas about `urgentsOf` and `List.get?`, then preservation of
`SchedInv` under each scheduler transition.
-/

theorem mem_urgentsOf {t : Nat} {l : List (Nat × Prio)} :
    t ∈ urgentsOf l ↔ (t, Prio.urgent) ∈ l := by
  unfold urgentsOf
  constructor
  · intro h
    obtain ⟨e, he, hfst⟩ := List.mem_map.mp h
    obtain ⟨hel, hurg⟩ := List.mem_filter.mp he
    have he2 : e.2 = Prio.urgent := by
      cases hpe : e.2
      · rfl
      · rw [hpe] at hurg; simp at hurg
    have : e = (t, Prio.urgent) := by
      cases e
      simp_all
    rw [this] at hel
    exact hel
  · intro h
    apply List.mem_map.mpr
    refine ⟨(t, Prio.urgent), List.mem_filter.mpr ⟨h, rfl⟩, rfl⟩

theorem urgentsOf_append (l1 l2 : List (Nat × Prio)) :
    urgentsOf (l1 ++ l2) = urgentsOf l1 ++ urgentsOf l2 := by
  unfold urgentsOf
  rw [List.filter_append, List.map_append]

theorem urgentsOf_sorted {l : List (Nat × Prio)}
    (h : l.Pairwise (fun a b => a.1 < b.1)) :
    (urgentsOf l).Pairwise (· < ·) := by
  unfold urgentsOf
  exact List.pairwise_map.mpr (List.Pairwise.filter _ h)

theorem get?_concat_cases {α : Type} {l : List α} {e x : α} {j : Nat}
    (h : (l ++ [e]).get? j = some x) :
    (j < l.length ∧ l.get? j = some x) ∨ (j = l.length ∧ x = e) := by
  rcases Nat.lt_trichotomy j l.length with hlt | heq | hgt
  · left
    exact ⟨hlt, by rw [← List.get?_append hlt]; exact h⟩
  · right
    refine ⟨heq, ?_⟩
    rw [heq, List.get?_concat_length] at h
    exact (Option.some.inj h).symm
  · exfalso
    have : (l ++ [e]).get? j = none := by
      apply List.get?_eq_none.mpr
      simp only [List.length_append, List.length_singleton]
      omega
    rw [this] at h
    exact Option.noConfusion h

theorem get?_some_lt {α : Type} {l : List α} {x : α} {j : Nat}
    (h : l.get? j = some x) : j < l.length := by
  by_contra hc
  rw [List.get?_eq_none.mpr (Nat.le_of_not_lt hc)] at h
  exact Option.noConfusion h

theorem inv_submit_urgent {s : SchedState} (h : SchedInv s) :
    SchedInv { s with
        clock := s.clock + 1
        urgentQ := s.urgentQ ++ [s.clock]
        subs := s.subs ++ [(s.clock, Prio.urgent)] } := by
  constructor
  · intro e he
    rcases List.mem_append.mp he with hold | hnew
    · exact Nat.lt_succ_of_lt (h.subClock e hold)
    · rw [List.mem_singleton.mp hnew]
      exact Nat.lt_succ_self _
  · intro e he
    exact Nat.lt_succ_of_lt (h.logClock e he)
  · intro n hn
    exact Nat.lt_succ_of_lt (h.pendClock n hn)
  · intro n hn
    exact Nat.lt_succ_of_lt (h.nqClock n hn)
  · intro n hn
    exact Nat.lt_succ_of_lt (h.modeClock n hn)
  · apply List.pairwise_append.mpr
    refine ⟨h.subsSorted, List.pairwise_singleton _ _, ?_⟩
    intro a ha b hb
    rw [List.mem_singleton.mp hb]
    exact h.subClock a ha
  · show urgentsOf (s.subs ++ [(s.clock, Prio.urgent)]) = _
    rw [urgentsOf_append, h.urgHist, List.append_assoc]
    rfl
  · intro n hn u hu hun
    rcases List.mem_append.mp hu with hold | hnew
    · exact h.pendSafe n hn u hold hun
    · exfalso
      have : u = s.clock := congrArg Prod.fst (List.mem_singleton.mp hnew)
      have hnc := h.pendClock n hn
      omega
  · intro j n hj u hu hun
    rcases List.mem_append.mp hu with hold | hnew
    · exact h.logSafe j n hj u hold hun
    · exfalso
      have : u = s.clock := congrArg Prod.fst (List.mem_singleton.mp hnew)
      have hnc := h.logClock (n, Prio.normal) (List.get?_mem hj)
      simp at hnc
      omega
  · exact h.urgOrder

theorem inv_submit_normal {s : SchedState} (h : SchedInv s) :
    SchedInv { s with
        clock := s.clock + 1
        normalQ := s.normalQ ++ [s.clock]
        subs := s.subs ++ [(s.clock, Prio.normal)] } := by
  have hpair : ∀ u : Nat, (u, Prio.urgent) ∈ [(s.clock, Prio.normal)] → False := by
    intro u hu
    have := List.mem_singleton.mp hu
    exact Prio.noConfusion (congrArg Prod.snd this)
  constructor
  · intro e he
    rcases List.mem_append.mp he with hold | hnew
    · exact Nat.lt_succ_of_lt (h.subClock e hold)
    · rw [List.mem_singleton.mp hnew]
      exact Nat.lt_succ_self _
  · intro e he
    exact Nat.lt_succ_of_lt (h.logClock e he)
  · intro n hn
    exact Nat.lt_succ_of_lt (h.pendClock n hn)
  · intro n hn
    rcases List.mem_append.mp hn with hold | hnew
    · exact Nat.lt_succ_of_lt (h.nqClock n hold)
    · rw [List.mem_singleton.mp hnew]
      exact Nat.lt_succ_self _
  · intro n hn
    exact Nat.lt_succ_of_lt (h.modeClock n hn)
  · apply List.pairwise_append.mpr
    refine ⟨h.subsSorted, List.pairwise_singleton _ _, ?_⟩
    intro a ha b hb
    rw [List.mem_singleton.mp hb]
    exact h.subClock a ha
  · show urgentsOf (s.subs ++ [(s.clock, Prio.normal)]) = _
    rw [urgentsOf_append]
    have hsing : urgentsOf [(s.clock, Prio.normal)] = [] := rfl
    rw [hsing, List.append_nil, h.urgHist]
  · intro n hn u hu hun
    rcases List.mem_append.mp hu with hold | hnew
    · exact h.pendSafe n hn u hold hun
    · exact absurd hnew (fun hx => hpair u hx)
  · intro j n hj u hu hun
    rcases List.mem_append.mp hu with hold | hnew
    · exact h.logSafe j n hj u hold hun
    · exact absurd hnew (fun hx => hpair u hx)
  · exact h.urgOrder

theorem inv_write_urgent {s : SchedState} {u : Nat} {rest : List Nat}
    (h : SchedInv s) (hq : s.urgentQ = u :: rest) :
    SchedInv { s with
        urgentQ := rest
        writeLog := s.writeLog ++ [(u, Prio.urgent)] } := by
  have husub : (u, Prio.urgent) ∈ s.subs := by
    apply mem_urgentsOf.mp
    rw [h.urgHist, hq]
    exact List.mem_append_right _ (List.mem_cons_self u rest)
  have huclock : u < s.clock := h.subClock _ husub
  have hsorted : (urgentsOf s.writeLog ++ u :: rest).Pairwise (· < ·) := by
    rw [← hq, ← h.urgHist]
    exact urgentsOf_sorted h.subsSorted
  have hlog_lt : ∀ t ∈ urgentsOf s.writeLog, t < u := by
    intro t ht
    exact (List.pairwise_append.mp hsorted).2.2 t ht u (List.mem_cons_self u rest)
  constructor
  · exact h.subClock
  · intro e he
    rcases List.mem_append.mp he with hold | hnew
    · exact h.logClock e hold
    · rw [List.mem_singleton.mp hnew]
      exact huclock
  · exact h.pendClock
  · exact h.nqClock
  · exact h.modeClock
  · exact h.subsSorted
  · show urgentsOf s.subs = urgentsOf (s.writeLog ++ [(u, Prio.urgent)]) ++ rest
    rw [urgentsOf_append, h.urgHist, hq]
    have hsing : urgentsOf [(u, Prio.urgent)] = [u] := rfl
    rw [hsing, List.append_assoc]
    rfl
  · intro n hn u' hu' hun
    exact List.mem_append_left _ (h.pendSafe n hn u' hu' hun)
  · intro j n hj u' hu' hun
    rcases get?_concat_cases hj with ⟨hjlt, hjold⟩ | ⟨hjeq, hjx⟩
    · obtain ⟨i, hij, hi⟩ := h.logSafe j n hjold u' hu' hun
      exact ⟨i, hij, by rw [List.get?_append (lt_trans hij hjlt)]; exact hi⟩
    · exact Prio.noConfusion (congrArg Prod.snd hjx)
  · intro i j t1 t2 hij hi hj
    rcases get?_concat_cases hj with ⟨hjlt, hjold⟩ | ⟨hjeq, hjx⟩
    · rcases get?_concat_cases hi with ⟨hilt, hiold⟩ | ⟨hieq, hix⟩
      · exact h.urgOrder i j t1 t2 hij hiold hjold
      · omega
    · rcases get?_concat_cases hi with ⟨hilt, hiold⟩ | ⟨hieq, hix⟩
      · have ht1 : t1 ∈ urgentsOf s.writeLog :=
          mem_urgentsOf.mpr (List.get?_mem hiold)
        have ht2 : t2 = u := congrArg Prod.fst hjx
        rw [ht2]
        exact hlog_lt t1 ht1
      · omega

theorem inv_select_normal {s : SchedState} {n : Nat} {rest : List Nat}
    (h : SchedInv s) (hq : s.normalQ = n :: rest) :
    SchedInv { s with
        normalQ := rest
        mode := LoopMode.draining n } := by
  constructor
  · exact h.subClock
  · exact h.logClock
  · exact h.pendClock
  · intro m hm
    exact h.nqClock m (by rw [hq]; exact List.mem_cons_of_mem n hm)
  · intro n' hn'
    have hinj : n = n' := by
      injection hn'
    rw [← hinj]
    exact h.nqClock n (by rw [hq]; exact List.mem_cons_self n rest)
  · exact h.subsSorted
  · exact h.urgHist
  · exact h.pendSafe
  · exact h.logSafe
  · exact h.urgOrder

theorem inv_drain_done {s : SchedState} {n : Nat}
    (h : SchedInv s) (hm : s.mode = LoopMode.draining n) (hq : s.urgentQ = []) :
    SchedInv { s with
        pending := s.pending ++ [n]
        mode := LoopMode.idle } := by
  have hall : ∀ u : Nat, (u, Prio.urgent) ∈ s.subs → (u, Prio.urgent) ∈ s.writeLog := by
    intro u hu
    have hmem : u ∈ urgentsOf s.subs := mem_urgentsOf.mpr hu
    rw [h.urgHist, hq, List.append_nil] at hmem
    exact mem_urgentsOf.mp hmem
  constructor
  · exact h.subClock
  · exact h.logClock
  · intro m hmm
    rcases List.mem_append.mp hmm with hold | hnew
    · exact h.pendClock m hold
    · rw [List.mem_singleton.mp hnew]
      exact h.modeClock n hm
  · exact h.nqClock
  · intro n' hn'
    exact LoopMode.noConfusion hn'
  · exact h.subsSorted
  · exact h.urgHist
  · intro m hmm u hu hun
    rcases List.mem_append.mp hmm with hold | hnew
    · exact h.pendSafe m hold u hu hun
    · exact hall u hu
  · exact h.logSafe
  · exact h.urgOrder

theorem inv_fire_normal {s : SchedState} {i : Nat} {n : Nat}
    (h : SchedInv s) (hp : s.pending.get? i = some n) :
    SchedInv { s with
        pending := s.pending.eraseIdx i
        writeLog := s.writeLog ++ [(n, Prio.normal)] } := by
  have hnp : n ∈ s.pending := List.get?_mem hp
  have hnc : n < s.clock := h.pendClock n hnp
  constructor
  · exact h.subClock
  · intro e he
    rcases List.mem_append.mp he with hold | hnew
    · exact h.logClock e hold
    · rw [List.mem_singleton.mp hnew]
      exact hnc
  · intro m hmm
    exact h.pendClock m ((List.eraseIdx_sublist s.pending i).subset hmm)
  · exact h.nqClock
  · exact h.modeClock
  · exact h.subsSorted
  · show urgentsOf s.subs = urgentsOf (s.writeLog ++ [(n, Prio.normal)]) ++ s.urgentQ
    rw [urgentsOf_append]
    have hsing : urgentsOf [(n, Prio.normal)] = [] := rfl
    rw [hsing, List.append_nil]
    exact h.urgHist
  · intro m hmm u hu hun
    exact List.mem_append_left _
      (h.pendSafe m ((List.eraseIdx_sublist s.pending i).subset hmm) u hu hun)
  · intro j m hj u hu hun
    rcases get?_concat_cases hj with ⟨hjlt, hjold⟩ | ⟨hjeq, hjx⟩
    · obtain ⟨i', hij, hi'⟩ := h.logSafe j m hjold u hu hun
      exact ⟨i', hij, by rw [List.get?_append (lt_trans hij hjlt)]; exact hi'⟩
    · have hmn : m = n := congrArg Prod.fst hjx
      have hulog : (u, Prio.urgent) ∈ s.writeLog :=
        h.pendSafe n hnp u hu (by rw [← hmn]; exact hun)
      obtain ⟨i', hi'⟩ := List.get?_of_mem hulog
      have hilt : i' < s.writeLog.length := get?_some_lt hi'
      refine ⟨i', by omega, ?_⟩
      rw [List.get?_append hilt]
      exact hi'
  · intro i' j t1 t2 hij hi' hj
    rcases get?_concat_cases hj with ⟨hjlt, hjold⟩ | ⟨hjeq, hjx⟩
    · rcases get?_concat_cases hi' with ⟨hilt, hiold⟩ | ⟨hieq, hix⟩
      · exact h.urgOrder i' j t1 t2 hij hiold hjold
      · omega
    · exact Prio.noConfusion (congrArg Prod.snd hjx).symm

theorem inv_stop {s : SchedState} (h : SchedInv s) :
    SchedInv { s with stopped := true } :=
  ⟨h.subClock, h.logClock, h.pendClock, h.nqClock, h.modeClock, h.subsSorted,
   h.urgHist, h.pendSafe, h.logSafe, h.urgOrder⟩

theorem inv_halt {s : SchedState} (h : SchedInv s) :
    SchedInv { s with mode := LoopMode.halted } :=
  ⟨h.subClock, h.logClock, h.pendClock, h.nqClock,
   fun _ hn => LoopMode.noConfusion hn, h.subsSorted,
   h.urgHist, h.pendSafe, h.logSafe, h.urgOrder⟩

theorem schedInv_step (s : SchedState) (a : SchedAction) (h : SchedInv s) :
    SchedInv (schedStep s a) := by
  obtain ⟨c, uq, nq, pd, wl, sb, md, st⟩ := s
  cases a with
  | submitUrgent =>
    simp only [schedStep]
    by_cases hq : uq.length < msgChanSize
    · rw [if_pos hq]
      exact inv_submit_urgent h
    · rw [if_neg hq]
      exact h
  | submitNormal =>
    simp only [schedStep]
    by_cases hq : nq.length < msgChanSize
    · rw [if_pos hq]
      exact inv_submit_normal h
    · rw [if_neg hq]
      exact h
  | stepUrgent =>
    simp only [schedStep]
    cases md with
    | idle =>
      cases uq with
      | nil => exact h
      | cons u rest => exact inv_write_urgent h rfl
    | draining nm =>
      cases uq with
      | nil => exact h
      | cons u rest => exact h
    | halted =>
      cases uq with
      | nil => exact h
      | cons u rest => exact h
  | selectNormal =>
    simp only [schedStep]
    cases md with
    | idle =>
      cases nq with
      | nil => exact h
      | cons n rest => exact inv_select_normal h rfl
    | draining nm =>
      cases nq with
      | nil => exact h
      | cons n rest => exact h
    | halted =>
      cases nq with
      | nil => exact h
      | cons n rest => exact h
  | drainUrgent =>
    simp only [schedStep]
    cases md with
    | idle =>
      cases uq with
      | nil => exact h
      | cons u rest => exact h
    | draining nm =>
      cases uq with
      | nil => exact h
      | cons u rest => exact inv_write_urgent h rfl
    | halted =>
      cases uq with
      | nil => exact h
      | cons u rest => exact h
  | drainDone =>
    simp only [schedStep]
    cases md with
    | idle =>
      cases uq with
      | nil => exact h
      | cons u rest => exact h
    | draining nm =>
      cases uq with
      | nil => exact inv_drain_done h rfl rfl
      | cons u rest => exact h
    | halted =>
      cases uq with
      | nil => exact h
      | cons u rest => exact h
  | fireNormal i =>
    simp only [schedStep]
    cases hp : pd.get? i with
    | none => exact h
    | some n => exact inv_fire_normal h hp
  | stop =>
    simp only [schedStep]
    exact inv_stop h
  | exitLoop =>
    simp only [schedStep]
    by_cases hs : st = true
    · rw [if_pos hs]
      exact inv_halt h
    · rw [if_neg hs]
      exact h

theorem schedInv_init : SchedInv initSched := by
  refine ⟨?_, ?_, ?_, ?_, ?_, ?_, ?_, ?_, ?_, ?_⟩
  · intro e he
    exact absurd he (List.not_mem_nil e)
  · intro e he
    exact absurd he (List.not_mem_nil e)
  · intro n hn
    exact absurd hn (List.not_mem_nil n)
  · intro n hn
    exact absurd hn (List.not_mem_nil n)
  · intro n hn
    exact LoopMode.noConfusion hn
  · exact List.Pairwise.nil
  · rfl
  · intro n hn
    exact absurd hn (List.not_mem_nil n)
  · intro j n hj
    rw [List.get?_eq_none.mpr (Nat.zero_le j)] at hj
    exact Option.noConfusion hj
  · intro i j t1 t2 hij hi hj
    rw [List.get?_eq_none.mpr (Nat.zero_le i)] at hi
    exact Option.noConfusion hi

theorem schedInv_run : ∀ (tr : List SchedAction) (s : SchedState),
    SchedInv s → SchedInv (tr.foldl schedStep s) := by
  intro tr
  induction tr with
  | nil =>
    intro s h
    exact h
  | cons a rest ih =>
    intro s h
    exact ih (schedStep s a) (schedInv_step s a h)

/-- C3: for every interleaving of submissions and scheduler steps, every
urgent message is written before any normal message submitted strictly
later (earlier log position); urgent messages are written in submission
order; and by the time a dequeued normal message is spawned for writing,
every urgent message submitted before it is already in the write log (the
non-blocking drain). -/
theorem writeLoop_urgent_precedence (tr : List SchedAction) :
    (∀ j n u, (runSched tr).writeLog.get? j = some (n, Prio.normal) →
      (u, Prio.urgent) ∈ (runSched tr).subs → u < n →
      ∃ i, i < j ∧ (runSched tr).writeLog.get? i = some (u, Prio.urgent)) ∧
    (∀ i j t1 t2, i < j → (runSched tr).writeLog.get? i = some (t1, Prio.urgent) →
      (runSched tr).writeLog.get? j = some (t2, Prio.urgent) → t1 < t2) ∧
    (∀ n ∈ (runSched tr).pending, ∀ u : Nat,
      (u, Prio.urgent) ∈ (runSched tr).subs → u < n →
      (u, Prio.urgent) ∈ (runSched tr).writeLog) := by
  have h := schedInv_run tr initSched schedInv_init
  exact ⟨fun j n u hj hu hun => h.logSafe j n hj u hu hun, h.urgOrder, h.pendSafe⟩

/-- C3 witness: on the six-step schedule the normal message submitted at
time 1 is logged at position 1, and the theorem places the urgent message
submitted at time 0 strictly before it. -/
theorem writeLoop_urgent_precedence_witness :
    ∃ i, i < 1 ∧ (runSched witnessTrace).writeLog.get? i = some (0, Prio.urgent) :=
  (writeLoop_urgent_precedence witnessTrace).1 1 1 0 (by decide) (by decide)
    (by decide)

end GoIost
